import Mathlib

/-!
Verification development for a package dependency-tree resolver
(single module `app.py`): version-specifier normalization
(`translate_version_syntax`), a cycle-safe recursive dependency resolver
(`Package.__init__` / `discover_deps` / `add_dependencies`), a persistent
name/version-keyed cache (`Package._init_cache` / `Package.update_cache`),
and a depth-first tree renderer (`get_tree`), exposed through the route
`present_dependencies`.

Python strings are modelled as `List Char` (character classes such as
`str.isalpha` and whitespace are restricted to their ASCII behavior, which
covers every string the development reasons about).  Exceptions are
modelled by `Option` / explicit error constructors.  The unbounded
recursion of the resolver and renderer is modelled with an explicit fuel
parameter; running out of fuel is a distinguished outcome, separate from a
raised exception.
-/

/-- A Python string, modelled as its list of characters. -/
abbrev PyStr := List Char

/-- A package identity: the pair (name, version), used as cache key.
Mirrors the `("package_name", "package_version")` tuples of `app.py`. -/
abbrev PkgId := PyStr × PyStr

/- ### Version normalizer (`translate_version_syntax`) -/

/-- Python whitespace (`str.split()` with no argument), ASCII fragment:
space, tab, newline, carriage return, vertical tab, form feed. -/
def pyIsSpace (c : Char) : Bool :=
  c == ' ' || c == '\t' || c == '\n' || c == '\r' || c == '\x0b' || c == '\x0c'

/-- Rule 1 of the normalizer: the input contains an alphabetic character
other than `x`/`X` (`any(c.isalpha() and c != 'x' and c != 'X' for c in version)`).
`Char.isAlpha` matches Python `str.isalpha` on ASCII. -/
def hasTagLetter (version : PyStr) : Bool :=
  version.any (fun c => c.isAlpha && !(c == 'x') && !(c == 'X'))

/-- The first whitespace-separated token of a string: models
`version.split()` followed by `version[0]`.  `none` models the `IndexError`
raised by `[0]` when `split()` returns the empty list (input empty or
all whitespace). -/
def firstToken (l : PyStr) : Option PyStr :=
  match l.dropWhile pyIsSpace with
  | [] => none
  | c :: rest => some (c :: rest.takeWhile (fun d => !pyIsSpace d))

/-- Python `str.split(sep)` for a single-character separator: keeps empty
pieces, so `"".split('.') = [""]` and `"1.2".split('.') = ["1","2"]`. -/
def splitOnChar (sep : Char) : PyStr → List PyStr
  | [] => [[]]
  | c :: rest =>
    if c = sep then [] :: splitOnChar sep rest
    else
      match splitOnChar sep rest with
      | [] => [[c]]
      | w :: ws => (c :: w) :: ws

/-- Python `sep.join(pieces)` for a single-character separator. -/
def joinSep (sep : Char) : List PyStr → PyStr
  | [] => []
  | [w] => w
  | w :: ws => w ++ sep :: joinSep sep ws

/-- The segment-padding step of the normalizer: if the version has fewer
than three dot-separated segments, append `'0'` segments until there are
three (`split_version += ['0'] * (3 - len(split_version))`). -/
def pad3 (w : PyStr) : PyStr :=
  if (splitOnChar '.' w).length < 3 then
    joinSep '.' (splitOnChar '.' w ++
      List.replicate (3 - (splitOnChar '.' w).length) ['0'])
  else w

/-- Python `str.replace(a, b)` for single characters. -/
def replaceChar (a b : Char) (l : PyStr) : PyStr :=
  l.map (fun c => if c = a then b else c)

/-- The characters stripped by `version.lstrip('~^<=> ')`. -/
def isStripChar (c : Char) : Bool :=
  c == '~' || c == '^' || c == '<' || c == '=' || c == '>' || c == ' '

/-- Python `version.lstrip('~^<=> ')`. -/
def lstripSpec (l : PyStr) : PyStr := l.dropWhile isStripChar

/-- The version normalizer `translate_version_syntax` of `app.py`.
`none` models the `IndexError` raised on an empty or all-whitespace
input (rule 2 indexes `split()[0]`). -/
def translate_version (version : PyStr) : Option PyStr :=
  if hasTagLetter version then some version
  else
    match firstToken version with
    | none => none
    | some w =>
      some (lstripSpec (replaceChar '*' '0' (replaceChar 'X' '0'
        (replaceChar 'x' '0' (pad3 w)))))

/- ### The resolution cache (`Package.CACHE`) -/

/-- The in-memory cache `Package.CACHE`: a mapping from package identity
to its ordered direct-dependency sequence.  Modelled as an association
list in insertion order, mirroring Python dict semantics. -/
abbrev Cache := List (PkgId × List PkgId)

/-- Dictionary lookup `CACHE[id]` (first matching key). -/
def cacheLookup : Cache → PkgId → Option (List PkgId)
  | [], _ => none
  | e :: rest, id => if e.1 = id then some e.2 else cacheLookup rest id

/-- Key-membership test `id in CACHE`. -/
def cacheHas (c : Cache) (id : PkgId) : Bool := (cacheLookup c id).isSome

/-- Dictionary assignment `CACHE[id] = v`: replace in place if the key is
present (keeping its position), else append at the end. -/
def cacheSet : Cache → PkgId → List PkgId → Cache
  | [], id, v => [(id, v)]
  | e :: rest, id, v =>
    if e.1 = id then (id, v) :: rest else e :: cacheSet rest id v

/-- Appending a dependency to the sequence stored for `id`
(`self.deps.append(pkg_id)`, where `self.deps` is the very list object
stored in `CACHE`).  A no-op if `id` has no entry. -/
def cacheAppend : Cache → PkgId → PkgId → Cache
  | [], _, _ => []
  | e :: rest, id, d =>
    if e.1 = id then (e.1, e.2 ++ [d]) :: rest else e :: cacheAppend rest id d

/-- The cache keys are pairwise distinct (Python dicts guarantee this). -/
def keysNodup (c : Cache) : Prop := (c.map Prod.fst).Nodup

/-- Every identity appearing in some entry's dependency sequence is
itself a key of the cache. -/
def closedCache (c : Cache) : Bool :=
  c.all (fun e => e.2.all (fun d => cacheHas c d))

/- ### The recursive resolver (`Package.__init__` / `discover_deps` /
`add_dependencies`) -/

/-- Package metadata returned by the registry: the optional
`dependencies` and `devDependencies` objects, each an ordered list of
(name, raw version specifier). -/
structure PkgInfo where
  dependencies : Option (List (PyStr × PyStr))
  devDependencies : Option (List (PyStr × PyStr))
deriving DecidableEq

/-- The registry client `requests.get(...).json()`, as a pure external
collaborator: `none` models a fetch failure (transport / bad body),
which `app.py` does not catch. -/
abbrev Registry := PkgId → Option PkgInfo

/-- The dependency mapping `discover_deps` selects: `dependencies` if the
key is present, else `devDependencies` if present, else a leaf. -/
def pickDeps (info : PkgInfo) : List (PyStr × PyStr) :=
  match info.dependencies with
  | some d => d
  | none =>
    match info.devDependencies with
    | some d => d
    | none => []

/-- Outcome of a resolution: success with the final cache and the list of
identities fetched from the registry (in fetch order); a raised exception
(fetch failure or normalizer `IndexError`); or fuel exhaustion (the
modelling artifact for unbounded recursion depth). -/
inductive ResolveRes where
  | ok (c : Cache) (tr : List PkgId)
  | err (c : Cache)
  | fuelOut
deriving DecidableEq

/-- The dependency loop of `add_dependencies`, parametrized by the
recursive resolution function `resolve` (applied to a child only when the
child's identity is not yet a cache key).  For each (name, raw specifier):
normalize the specifier, recursively resolve if uncached, then append the
child identity to `parent`'s cached sequence. -/
def addDepsF (resolve : PkgId → Cache → ResolveRes) (parent : PkgId) :
    List (PyStr × PyStr) → Cache → ResolveRes
  | [], c => .ok c []
  | (nm, rawv) :: rest, c =>
    match translate_version rawv with
    | none => .err c
    | some ver =>
      if cacheHas c (nm, ver) then
        addDepsF resolve parent rest (cacheAppend c parent (nm, ver))
      else
        match resolve (nm, ver) c with
        | .ok c1 tr1 =>
          match addDepsF resolve parent rest (cacheAppend c1 parent (nm, ver)) with
          | .ok c2 tr2 => .ok c2 (tr1 ++ tr2)
          | r => r
        | r => r

/-- Resolution of one identity (`Package.__init__`, which always runs
`discover_deps`): register the empty entry `CACHE[id] = []` first (the
cycle guard), fetch the metadata, then process the selected dependency
mapping.  Note there is no cache fast path here: the guard sits at the
recursive call sites in `addDepsF`. -/
def resolveFuel : Nat → Registry → PkgId → Cache → ResolveRes
  | 0, _, _, _ => .fuelOut
  | n + 1, reg, id, c =>
    match reg id with
    | none => .err (cacheSet c id [])
    | some info =>
      match addDepsF (fun cid cc => resolveFuel n reg cid cc) id
          (pickDeps info) (cacheSet c id []) with
      | .ok c2 tr => .ok c2 (id :: tr)
      | r => r

/- ### Cache persistence (`Package.update_cache` / `Package._init_cache`) -/

/-- A record of the persisted store, one per identity:
`{"name": ..., "version": ..., "deps": [[name, version], ...]}`. -/
abbrev StoreRec := PyStr × PyStr × List PkgId

/-- `Package.update_cache`: serialize the in-memory cache, one record per
entry, in dictionary (insertion) order. -/
def update_cache (c : Cache) : List StoreRec :=
  c.map (fun e => (e.1.1, e.1.2, e.2))

/-- Rebuilding the in-memory mapping from parsed records
(`cls.CACHE[(item["name"], item["version"])] = deps`, in file order). -/
def load_store (items : List StoreRec) : Cache :=
  items.foldl (fun acc it => cacheSet acc (it.1, it.2.1) it.2.2) []

/-- A JSON value as it exists after `json.load`: a parsed Python value.
Object fields are the parsed dict's key/value pairs, with unique keys in
insertion order (the parser collapses duplicate keys before the loading
loop ever runs). -/
inductive JVal where
  | jnull
  | jbool (b : Bool)
  | jnum (n : Int)
  | jstr (s : PyStr)
  | arr (items : List JVal)
  | obj (fields : List (PyStr × JVal))

/-- Key lookup in a parsed object's field list. -/
def jfield : List (PyStr × JVal) → PyStr → Option JVal
  | [], _ => none
  | f :: rest, k => if f.1 = k then some f.2 else jfield rest k

/-- Python subscripting `item["key"]` on a parsed value: only a dict
supports string subscripts (`KeyError` on a missing key, `TypeError` on
every other parsed value). -/
def jsubscript : JVal → PyStr → Option JVal
  | .obj fields, k => jfield fields k
  | _, _ => none

/-- The sequence a Python `for` loop draws from a parsed value: a list
yields its elements, a string its one-character strings, a dict its keys;
`null`, booleans and numbers are not iterable (`TypeError`). -/
def jiter : JVal → Option (List JVal)
  | .arr items => some items
  | .jstr s => some (s.map (fun c => JVal.jstr [c]))
  | .obj fields => some (fields.map (fun f => JVal.jstr f.1))
  | .jnull => none
  | .jbool _ => none
  | .jnum _ => none

/-- Python unpacking `name, ver = el`: iterates `el` and succeeds exactly
when that yields two values (`TypeError` when `el` is not iterable,
`ValueError` on any other length); the unpacked values themselves are
unconstrained. -/
def unpack2 (v : JVal) : Option (JVal × JVal) :=
  match jiter v with
  | some [x, y] => some (x, y)
  | _ => none

/-- Python hashability of a parsed value: lists and dicts cannot appear
inside a dict key (`TypeError: unhashable type`); every other parsed
value can. -/
def jhashable : JVal → Bool
  | .arr _ => false
  | .obj _ => false
  | _ => true

mutual
/-- Structural equality of parsed values, standing in for Python `==` on
dict keys.  (Python's cross-type numeric equalities, such as
`True == 1`, are outside the model.) -/
def jeqb : JVal → JVal → Bool
  | .jnull, .jnull => true
  | .jbool a, .jbool b => a == b
  | .jnum a, .jnum b => a == b
  | .jstr a, .jstr b => a == b
  | .arr a, .arr b => jeqbList a b
  | .obj a, .obj b => jeqbFields a b
  | _, _ => false

def jeqbList : List JVal → List JVal → Bool
  | [], [] => true
  | x :: xs, y :: ys => jeqb x y && jeqbList xs ys
  | _, _ => false

def jeqbFields : List (PyStr × JVal) → List (PyStr × JVal) → Bool
  | [], [] => true
  | f :: fs, g :: gs => f.1 == g.1 && jeqb f.2 g.2 && jeqbFields fs gs
  | _, _ => false
end

/-- The in-memory mapping the loading loop builds: since the loop makes
no type checks, it is a dict keyed by pairs of arbitrary parsed values
(the typed records `update_cache` writes are the special case of string
pairs). -/
abbrev DynCache := List ((JVal × JVal) × List (JVal × JVal))

/-- Dict assignment on the dynamically keyed mapping. -/
def dynSet : DynCache → JVal × JVal → List (JVal × JVal) → DynCache
  | [], k, v => [(k, v)]
  | e :: rest, k, v =>
    if jeqb e.1.1 k.1 && jeqb e.1.2 k.2 then (k, v) :: rest
    else e :: dynSet rest k v

/-- The dict built by executing the assignments of the loading loop in
file order. -/
def dynLoad (records : List ((JVal × JVal) × List (JVal × JVal))) :
    DynCache :=
  records.foldl (fun acc r => dynSet acc r.1 r.2) []

/-- The comprehension `[(name, ver) for name, ver in item["deps"]]`
applied to the element sequence of `item["deps"]`: every element must
unpack into exactly two values, of any type. -/
def loadDeps : List JVal → Option (List (JVal × JVal))
  | [] => some []
  | j :: rest =>
    match unpack2 j, loadDeps rest with
    | some d, some ds => some (d :: ds)
    | _, _ => none

/-- One iteration of the loading loop on `item`: subscript
`item["deps"]`, iterate it, unpack each element, subscript `item["name"]`
and `item["version"]`, and form the dict key, whose two components must
be hashable.  `none` models the uncaught exception of whichever step
fails; no step checks types beyond what its operation requires. -/
def loadItem (item : JVal) : Option ((JVal × JVal) × List (JVal × JVal)) :=
  match jsubscript item ("deps".toList) with
  | none => none
  | some d =>
    match jiter d with
    | none => none
    | some els =>
      match loadDeps els with
      | none => none
      | some deps =>
        match jsubscript item ("name".toList),
            jsubscript item ("version".toList) with
        | some n, some v =>
          if jhashable n && jhashable v then some ((n, v), deps) else none
        | _, _ => none

/-- All iterations of the loading loop, in file order. -/
def loadItems : List JVal →
    Option (List ((JVal × JVal) × List (JVal × JVal)))
  | [] => some []
  | it :: rest =>
    match loadItem it, loadItems rest with
    | some r, some rs => some (r :: rs)
    | _, _ => none

/-- The loading loop of `_init_cache` on the parsed store value: iterate
the top-level value (`for item in cache`) and process each drawn item;
`none` models an uncaught exception escaping the loop. -/
def loadStore (v : JVal) :
    Option (List ((JVal × JVal) × List (JVal × JVal))) :=
  match jiter v with
  | none => none
  | some items => loadItems items

/-- The state of the backing file `cache.json`: missing
(`FileNotFoundError`), present but not syntactically valid JSON
(`json.JSONDecodeError`), or present with a parsed JSON value. -/
inductive StoreFile where
  | absent
  | invalidJson
  | json (v : JVal)

/-- Outcome of `Package._init_cache`: normal return with the built
mapping and the resulting state of the backing file, or an uncaught
exception (with the file left in place). -/
inductive InitResult where
  | ok (c : DynCache) (f : StoreFile)
  | raised (f : StoreFile)

/-- `Package._init_cache` (the cold-start path, `CACHE is None`): a
missing file initializes empty; a syntactically invalid file initializes
empty and removes the file (`os.remove`); a parsed JSON file runs the
loading loop, whose uncaught exceptions escape the `try` block and leave
the file in place. -/
def init_cache : StoreFile → InitResult
  | .absent => .ok [] .absent
  | .invalidJson => .ok [] .absent
  | .json v =>
    match loadStore v with
    | some records => .ok (dynLoad records) (.json v)
    | none => .raised (.json v)

/- ### The tree renderer (`get_tree`) -/

/-- One rendered line: `│` + depth-many `─` + `name(version)` + `<br/>`. -/
def renderLine (pkg : PkgId) (depth : Nat) : PyStr :=
  '│' :: (List.replicate depth '─' ++ pkg.1 ++ '(' :: pkg.2 ++ (")<br/>".toList))

/-- The child loop of `get_tree`, parametrized by the recursive walk
function: children are visited in cached order, and a child already in
`discovered` is silently skipped. -/
def getChildrenF (walk : PkgId → PyStr → List PkgId → Nat →
    Option (PyStr × List PkgId)) :
    List PkgId → PyStr → List PkgId → Nat → Option (PyStr × List PkgId)
  | [], tree, disc, _ => some (tree, disc)
  | dep :: rest, tree, disc, depth =>
    if dep ∈ disc then getChildrenF walk rest tree disc depth
    else
      match walk dep tree disc (depth + 1) with
      | some (t1, d1) => getChildrenF walk rest t1 d1 depth
      | none => none

/-- `get_tree`: depth-first pre-order rendering from the cache.  Returns
the accumulated text and the `discovered` list; `none` models either the
`KeyError` on a missing cache entry or fuel exhaustion. -/
def getTree : Nat → Cache → PkgId → PyStr → List PkgId → Nat →
    Option (PyStr × List PkgId)
  | 0, _, _, _, _, _ => none
  | n + 1, c, pkg, tree, disc, depth =>
    match cacheLookup c pkg with
    | none => none
    | some deps =>
      getChildrenF (fun p t d dep => getTree n c p t d dep) deps
        (tree ++ renderLine pkg depth) (disc ++ [pkg]) depth

/- ### The route (`present_dependencies`) -/

/-- The header line of the rendered tree
(`f"Dependency Tree for {pkg_name}({version}):<br/><br/>"`). -/
def treeHeader (n v : PyStr) : PyStr :=
  ("Dependency Tree for ".toList) ++ n ++ '(' :: v ++ ("):<br/><br/>".toList)

/-- The route handler `present_dependencies`: build a `Package` from the
caller-supplied name and version exactly as given (no normalization of
the root version), persist the cache, and render the tree from the root.
Returns the rendered text, the final cache, the persisted store and the
fetch trace; `none` models a raised exception or fuel exhaustion. -/
def present_dependencies (fuel : Nat) (reg : Registry)
    (pkg_name version : PyStr) (c0 : Cache) :
    Option (PyStr × Cache × List StoreRec × List PkgId) :=
  match resolveFuel fuel reg (pkg_name, version) c0 with
  | .ok c tr =>
    match getTree fuel c (pkg_name, version)
        (treeHeader pkg_name version) [] 0 with
    | some (t, _) => some (t, c, update_cache c, tr)
    | none => none
  | _ => none

/- ### Cache lemmas -/

theorem cacheLookup_cacheSet (c : Cache) (id : PkgId) (v : List PkgId)
    (x : PkgId) : cacheLookup (cacheSet c id v) x =
      if id = x then some v else cacheLookup c x := by
  induction c with
  | nil => simp [cacheSet, cacheLookup]
  | cons e rest ih =>
    by_cases h : e.1 = id
    · by_cases hx : id = x
      · simp [cacheSet, cacheLookup, h, hx]
      · simp [cacheSet, cacheLookup, h, hx]
    · by_cases hx : e.1 = x
      · have hix : ¬id = x := fun hh => h (by rw [hx, hh])
        have hxi : ¬x = id := fun hh => hix hh.symm
        simp [cacheSet, cacheLookup, hx, hix, hxi, h]
      · simp [cacheSet, cacheLookup, hx, h, ih]

theorem cacheLookup_cacheAppend (c : Cache) (p d x : PkgId) :
    cacheLookup (cacheAppend c p d) x =
      if p = x then (cacheLookup c x).map (fun ds => ds ++ [d])
      else cacheLookup c x := by
  induction c with
  | nil => simp [cacheAppend, cacheLookup]
  | cons e rest ih =>
    by_cases h : e.1 = p
    · by_cases hx : e.1 = x
      · have hpx : p = x := by rw [← h, hx]
        simp [cacheAppend, cacheLookup, h, hx, hpx]
      · have hpx : ¬p = x := fun hh => hx (by rw [h, hh])
        simp [cacheAppend, cacheLookup, h, hx, hpx]
    · by_cases hx : e.1 = x
      · have hpx : ¬p = x := fun hh => h (by rw [hx, hh])
        have hxp : ¬x = p := fun hh => hpx hh.symm
        simp [cacheAppend, cacheLookup, h, hx, hpx, hxp]
      · simp [cacheAppend, cacheLookup, h, hx, ih]

theorem cacheHas_cacheSet (c : Cache) (id : PkgId) (v : List PkgId)
    (x : PkgId) : cacheHas (cacheSet c id v) x = true ↔
      x = id ∨ cacheHas c x = true := by
  unfold cacheHas
  rw [cacheLookup_cacheSet]
  by_cases h : id = x
  · simp [h]
  · rw [if_neg h]
    constructor
    · exact fun hh => Or.inr hh
    · rintro (hh | hh)
      · exact absurd hh.symm h
      · exact hh

theorem cacheHas_cacheAppend (c : Cache) (p d x : PkgId) :
    cacheHas (cacheAppend c p d) x = cacheHas c x := by
  unfold cacheHas
  rw [cacheLookup_cacheAppend]
  by_cases h : p = x <;> simp [h]

theorem keys_cacheAppend (c : Cache) (p d : PkgId) :
    (cacheAppend c p d).map Prod.fst = c.map Prod.fst := by
  induction c with
  | nil => simp [cacheAppend]
  | cons e rest ih =>
    by_cases h : e.1 = p <;> simp [cacheAppend, h, ih]

theorem cacheHas_iff_mem_keys (c : Cache) (x : PkgId) :
    cacheHas c x = true ↔ x ∈ c.map Prod.fst := by
  induction c with
  | nil => simp [cacheHas, cacheLookup]
  | cons e rest ih =>
    by_cases h : e.1 = x
    · simp [cacheHas, cacheLookup, h]
    · simp [cacheHas, cacheLookup, h, Ne.symm h] at ih ⊢
      exact ih

theorem cacheLookup_mem {c : Cache} {y : PkgId} {ds : List PkgId}
    (h : cacheLookup c y = some ds) : (y, ds) ∈ c := by
  induction c with
  | nil => simp [cacheLookup] at h
  | cons e rest ih =>
    obtain ⟨e1, e2⟩ := e
    by_cases he : e1 = y
    · simp [cacheLookup, he] at h
      subst he
      subst h
      exact List.mem_cons_self _ _
    · simp [cacheLookup, he] at h
      exact List.mem_cons_of_mem _ (ih h)

theorem mem_cacheSet {c : Cache} {id : PkgId} {v : List PkgId}
    {e : PkgId × List PkgId} (h : e ∈ cacheSet c id v) :
    e = (id, v) ∨ e ∈ c := by
  induction c with
  | nil => simp [cacheSet] at h; simp [h]
  | cons e0 rest ih =>
    by_cases h0 : e0.1 = id
    · simp [cacheSet, h0] at h
      rcases h with h | h
      · exact Or.inl h
      · exact Or.inr (List.mem_cons_of_mem _ h)
    · simp [cacheSet, h0] at h
      rcases h with h | h
      · exact Or.inr (by simp [h])
      · rcases ih h with h' | h'
        · exact Or.inl h'
        · exact Or.inr (List.mem_cons_of_mem _ h')

theorem keysNodup_cacheSet {c : Cache} {id : PkgId} {v : List PkgId}
    (h : keysNodup c) : keysNodup (cacheSet c id v) := by
  induction c with
  | nil => simp [cacheSet, keysNodup]
  | cons e rest ih =>
    by_cases h0 : e.1 = id
    · simpa [cacheSet, keysNodup, h0] using h
    · rw [keysNodup, List.map_cons, List.nodup_cons] at h
      rw [keysNodup]
      simp only [cacheSet, if_neg h0, List.map_cons, List.nodup_cons]
      refine ⟨?_, ih h.2⟩
      intro hmem
      have hx' : cacheHas (cacheSet rest id v) e.1 = true :=
        (cacheHas_iff_mem_keys _ _).2 hmem
      rcases (cacheHas_cacheSet rest id v e.1).1 hx' with h' | h'
      · exact h0 h'
      · exact h.1 ((cacheHas_iff_mem_keys rest e.1).1 h')

theorem keysNodup_cacheAppend {c : Cache} {p d : PkgId}
    (h : keysNodup c) : keysNodup (cacheAppend c p d) := by
  unfold keysNodup at h ⊢
  rw [keys_cacheAppend]
  exact h

theorem closedCache_iff (c : Cache) : closedCache c = true ↔
    ∀ e ∈ c, ∀ d ∈ e.2, cacheHas c d = true := by
  simp [closedCache, List.all_eq_true]

theorem closedCache_cacheSet_nil {c : Cache} {id : PkgId}
    (h : closedCache c = true) : closedCache (cacheSet c id []) = true := by
  rw [closedCache_iff] at h ⊢
  intro e he d hd
  rcases mem_cacheSet he with h' | h'
  · subst h'; simp at hd
  · exact (cacheHas_cacheSet c id [] d).2 (Or.inr (h e h' d hd))

theorem mem_cacheAppend_deps {c : Cache} {p d : PkgId}
    {e : PkgId × List PkgId} (h : e ∈ cacheAppend c p d) :
    ∀ x ∈ e.2, (∃ e0 ∈ c, x ∈ e0.2) ∨ x = d := by
  induction c with
  | nil => simp [cacheAppend] at h
  | cons e0 rest ih =>
    by_cases h0 : e0.1 = p
    · simp [cacheAppend, h0] at h
      rcases h with h | h
      · intro x hx
        rw [h] at hx
        simp at hx
        rcases hx with hx | hx
        · exact Or.inl ⟨e0, by simp, hx⟩
        · exact Or.inr hx
      · intro x hx
        exact Or.inl ⟨e, List.mem_cons_of_mem _ h, hx⟩
    · simp [cacheAppend, h0] at h
      rcases h with h | h
      · intro x hx
        exact Or.inl ⟨e0, by simp, by rw [← h]; exact hx⟩
      · intro x hx
        rcases ih h x hx with ⟨e1, he1, hx1⟩ | hx1
        · exact Or.inl ⟨e1, List.mem_cons_of_mem _ he1, hx1⟩
        · exact Or.inr hx1

theorem closedCache_cacheAppend {c : Cache} {p d : PkgId}
    (h : closedCache c = true) (hd : cacheHas c d = true) :
    closedCache (cacheAppend c p d) = true := by
  rw [closedCache_iff] at h ⊢
  intro e he x hx
  rw [cacheHas_cacheAppend]
  rcases mem_cacheAppend_deps he x hx with ⟨e0, he0, hx0⟩ | hx0
  · exact h e0 he0 x hx0
  · subst hx0; exact hd

/- ### Resolver invariants -/

/-- Invariant of the dependency loop `addDepsF`, assuming the invariant
of the recursive resolve function it is given: the cache only grows, the
fetch trace has no duplicates, every fetched identity was not previously
cached and ends up cached, and closedness / key-uniqueness of the cache
are preserved. -/
theorem addDepsF_inv (resolve : PkgId → Cache → ResolveRes)
    (hres : ∀ cid cc cc' tr, resolve cid cc = .ok cc' tr →
      (∀ y, cacheHas cc y = true → cacheHas cc' y = true) ∧
      cacheHas cc' cid = true ∧
      tr.Nodup ∧
      (∀ x ∈ tr, x = cid ∨ cacheHas cc x = false) ∧
      (∀ x ∈ tr, cacheHas cc' x = true) ∧
      (closedCache cc = true → closedCache cc' = true) ∧
      (keysNodup cc → keysNodup cc')) :
    ∀ (deps : List (PyStr × PyStr)) (parent : PkgId) (c c' : Cache)
      (tr : List PkgId), addDepsF resolve parent deps c = .ok c' tr →
      (∀ y, cacheHas c y = true → cacheHas c' y = true) ∧
      tr.Nodup ∧
      (∀ x ∈ tr, cacheHas c x = false) ∧
      (∀ x ∈ tr, cacheHas c' x = true) ∧
      (closedCache c = true → closedCache c' = true) ∧
      (keysNodup c → keysNodup c') := by
  intro deps
  induction deps with
  | nil =>
    intro parent c c' tr h
    simp only [addDepsF] at h
    cases h
    exact ⟨fun y hy => hy, List.nodup_nil, by simp, by simp,
      fun hc => hc, fun hk => hk⟩
  | cons dep rest ih =>
    intro parent c c' tr h
    obtain ⟨nm, rawv⟩ := dep
    rcases htr : translate_version rawv with _ | ver
    · simp only [addDepsF, htr] at h
      cases h
    simp only [addDepsF, htr] at h
    by_cases hc0 : cacheHas c (nm, ver) = true
    · rw [if_pos hc0] at h
      have ha := ih parent (cacheAppend c parent (nm, ver)) c' tr h
      simp only [cacheHas_cacheAppend] at ha
      exact ⟨ha.1, ha.2.1, ha.2.2.1, ha.2.2.2.1,
        fun hcl => ha.2.2.2.2.1 (closedCache_cacheAppend hcl hc0),
        fun hk => ha.2.2.2.2.2 (keysNodup_cacheAppend hk)⟩
    · rw [if_neg hc0] at h
      rcases hr : resolve (nm, ver) c with ⟨c1, tr1⟩ | ⟨c1⟩ | ⟨⟩
      · simp only [hr] at h
        rcases hadd : addDepsF resolve parent rest
            (cacheAppend c1 parent (nm, ver)) with ⟨c2, tr2⟩ | ⟨c2⟩ | ⟨⟩
        all_goals simp only [hadd] at h
        · injection h with h1 h2
          subst h1
          subst h2
          obtain ⟨hmono1, hhas1, hnd1, hnew1, hfin1, hcl1, hk1⟩ :=
            hres _ _ _ _ hr
          have ha := ih parent (cacheAppend c1 parent (nm, ver)) c2 tr2 hadd
          obtain ⟨hmono2, hnd2, hnew2, hfin2, hcl2, hk2⟩ := ha
          have hmono1' : ∀ y, cacheHas c y = true →
              cacheHas (cacheAppend c1 parent (nm, ver)) y = true := by
            intro y hy
            rw [cacheHas_cacheAppend]
            exact hmono1 y hy
          refine ⟨fun y hy => hmono2 y (hmono1' y hy), ?_, ?_, ?_, ?_, ?_⟩
          · refine List.Nodup.append hnd1 hnd2 ?_
            intro x hx1 hx2
            have h1 : cacheHas c1 x = true := hfin1 x hx1
            have h2 := hnew2 x hx2
            rw [cacheHas_cacheAppend] at h2
            rw [h1] at h2
            cases h2
          · intro x hx
            rcases List.mem_append.1 hx with hx | hx
            · rcases hnew1 x hx with hx' | hx'
              · subst hx'
                exact Bool.eq_false_iff.2 hc0
              · exact hx'
            · have h2 := hnew2 x hx
              rw [cacheHas_cacheAppend] at h2
              by_cases hcx : cacheHas c x = true
              · rw [hmono1 x hcx] at h2; cases h2
              · exact Bool.eq_false_iff.2 hcx
          · intro x hx
            rcases List.mem_append.1 hx with hx | hx
            · exact hmono2 x (by rw [cacheHas_cacheAppend]; exact hfin1 x hx)
            · exact hfin2 x hx
          · intro hcl
            exact hcl2 (closedCache_cacheAppend (hcl1 hcl) hhas1)
          · intro hk
            exact hk2 (keysNodup_cacheAppend (hk1 hk))
        · cases h
        · cases h
      · simp only [hr] at h; cases h
      · simp only [hr] at h; cases h

/-- Master invariant of the resolver: on success the cache only grows,
the resolved identity is cached, the fetch trace is duplicate-free,
everything fetched was uncached before the call (except possibly the
root, which is always fetched) and is cached afterwards, and
closedness / key-uniqueness of the cache are preserved. -/
theorem resolveFuel_inv : ∀ (n : Nat) (reg : Registry) (id : PkgId)
    (c c' : Cache) (tr : List PkgId), resolveFuel n reg id c = .ok c' tr →
      (∀ y, cacheHas c y = true → cacheHas c' y = true) ∧
      cacheHas c' id = true ∧
      tr.Nodup ∧
      (∀ x ∈ tr, x = id ∨ cacheHas c x = false) ∧
      (∀ x ∈ tr, cacheHas c' x = true) ∧
      (closedCache c = true → closedCache c' = true) ∧
      (keysNodup c → keysNodup c') := by
  intro n
  induction n with
  | zero => intro reg id c c' tr h; cases h
  | succ n ih =>
    intro reg id c c' tr h
    rcases hreg : reg id with _ | info
    · simp only [resolveFuel, hreg] at h
      cases h
    simp only [resolveFuel, hreg] at h
    rcases hadd : addDepsF (fun cid cc => resolveFuel n reg cid cc) id
        (pickDeps info) (cacheSet c id []) with ⟨c2, tr2⟩ | ⟨c2⟩ | ⟨⟩
    all_goals simp only [hadd] at h
    · injection h with h1 h2
      subst h1
      subst h2
      have ha := addDepsF_inv _ (fun cid cc cc' tr h => ih reg cid cc cc' tr h)
        _ _ _ _ _ hadd
      obtain ⟨hmono, hnd, hnew, hfin, hcl, hk⟩ := ha
      have hmono0 : ∀ y, cacheHas c y = true →
          cacheHas (cacheSet c id []) y = true := by
        intro y hy
        exact (cacheHas_cacheSet c id [] y).2 (Or.inr hy)
      have hhasid : cacheHas c2 id = true :=
        hmono id ((cacheHas_cacheSet c id [] id).2 (Or.inl rfl))
      refine ⟨fun y hy => hmono y (hmono0 y hy), hhasid, ?_, ?_, ?_, ?_, ?_⟩
      · refine List.nodup_cons.2 ⟨?_, hnd⟩
        intro hmem
        have := hnew id hmem
        rw [(cacheHas_cacheSet c id [] id).2 (Or.inl rfl)] at this
        cases this
      · intro x hx
        rcases List.mem_cons.1 hx with hx | hx
        · exact Or.inl hx
        · have := hnew x hx
          by_cases hcx : cacheHas c x = true
          · rw [hmono0 x hcx] at this; cases this
          · exact Or.inr (Bool.eq_false_iff.2 hcx)
      · intro x hx
        rcases List.mem_cons.1 hx with hx | hx
        · subst hx; exact hhasid
        · exact hfin x hx
      · intro hcl0
        exact hcl (closedCache_cacheSet_nil hcl0)
      · intro hk0
        exact hk (keysNodup_cacheSet hk0)
    · cases h
    · cases h

/-- On success the fetch trace starts with the resolved root identity:
the root is fetched first, unconditionally. -/
theorem resolveFuel_trace_head {n : Nat} {reg : Registry} {id : PkgId}
    {c c' : Cache} {tr : List PkgId} (h : resolveFuel n reg id c = .ok c' tr) :
    ∃ tr2, tr = id :: tr2 := by
  cases n with
  | zero => cases h
  | succ n =>
    rcases hreg : reg id with _ | info
    · simp only [resolveFuel, hreg] at h
      cases h
    simp only [resolveFuel, hreg] at h
    rcases hadd : addDepsF (fun cid cc => resolveFuel n reg cid cc) id
        (pickDeps info) (cacheSet c id []) with ⟨c2, tr2⟩ | ⟨c2⟩ | ⟨⟩
    all_goals simp only [hadd] at h
    · injection h with h1 h2
      subst h1
      subst h2
      exact ⟨tr2, rfl⟩
    · cases h
    · cases h

/- ### Normalizer lemmas -/

/-- Number of occurrences of a character in a string. -/
def countc (ch : Char) : PyStr → Nat
  | [] => 0
  | c :: rest => (if c = ch then 1 else 0) + countc ch rest

theorem countc_append (ch : Char) (a b : PyStr) :
    countc ch (a ++ b) = countc ch a + countc ch b := by
  induction a with
  | nil => simp [countc]
  | cons c rest ih => simp [countc, ih, Nat.add_assoc]

theorem splitOnChar_ne_nil (sep : Char) (l : PyStr) :
    splitOnChar sep l ≠ [] := by
  cases l with
  | nil => simp [splitOnChar]
  | cons c rest =>
    by_cases h : c = sep
    · simp [splitOnChar, h]
    · simp only [splitOnChar, if_neg h]
      rcases hs : splitOnChar sep rest with _ | ⟨w, ws⟩ <;> simp

theorem splitOnChar_length (sep : Char) (l : PyStr) :
    (splitOnChar sep l).length = countc sep l + 1 := by
  induction l with
  | nil => simp [splitOnChar, countc]
  | cons c rest ih =>
    by_cases h : c = sep
    · simp [splitOnChar, countc, h, ih]
      omega
    · simp only [splitOnChar, if_neg h, countc]
      rcases hs : splitOnChar sep rest with _ | ⟨w, ws⟩
      · exact absurd hs (splitOnChar_ne_nil sep rest)
      · rw [hs] at ih
        simp only [List.length_cons] at ih ⊢
        simp [h]
        omega

theorem mem_splitOnChar {sep : Char} {l w : PyStr}
    (hw : w ∈ splitOnChar sep l) : ∀ x ∈ w, x ∈ l := by
  induction l generalizing w with
  | nil =>
    simp [splitOnChar] at hw
    subst hw
    simp
  | cons c rest ih =>
    by_cases h : c = sep
    · simp only [splitOnChar, if_pos h] at hw
      rcases List.mem_cons.1 hw with hw | hw
      · subst hw; simp
      · intro x hx
        exact List.mem_cons_of_mem _ (ih hw x hx)
    · simp only [splitOnChar, if_neg h] at hw
      rcases hs : splitOnChar sep rest with _ | ⟨w0, ws⟩
      · exact absurd hs (splitOnChar_ne_nil sep rest)
      · rw [hs] at hw
        rcases List.mem_cons.1 hw with hw | hw
        · subst hw
          intro x hx
          rcases List.mem_cons.1 hx with hx | hx
          · subst hx; simp
          · have hw0 : w0 ∈ splitOnChar sep rest := by rw [hs]; simp
            exact List.mem_cons_of_mem _ (ih hw0 x hx)
        · intro x hx
          have hws : w ∈ splitOnChar sep rest := by
            rw [hs]; exact List.mem_cons_of_mem _ hw
          exact List.mem_cons_of_mem _ (ih hws x hx)

theorem mem_joinSep {sep : Char} {L : List PyStr} {x : Char}
    (hx : x ∈ joinSep sep L) : x = sep ∨ ∃ w ∈ L, x ∈ w := by
  induction L with
  | nil => simp [joinSep] at hx
  | cons w ws ih =>
    cases ws with
    | nil =>
      simp only [joinSep] at hx
      exact Or.inr ⟨w, by simp, hx⟩
    | cons w1 ws1 =>
      simp only [joinSep] at hx
      rcases List.mem_append.1 hx with hx | hx
      · exact Or.inr ⟨w, by simp, hx⟩
      · rcases List.mem_cons.1 hx with hx | hx
        · exact Or.inl hx
        · rcases ih hx with h | ⟨w2, hw2, hx2⟩
          · exact Or.inl h
          · exact Or.inr ⟨w2, List.mem_cons_of_mem _ hw2, hx2⟩

theorem joinSep_countc (sep : Char) : ∀ L : List PyStr,
    L.length - 1 ≤ countc sep (joinSep sep L) := by
  intro L
  induction L with
  | nil => simp [joinSep, countc]
  | cons w ws ih =>
    cases ws with
    | nil => simp [joinSep]
    | cons w1 ws1 =>
      simp only [joinSep]
      rw [countc_append]
      have hc : countc sep (sep :: joinSep sep (w1 :: ws1)) =
          1 + countc sep (joinSep sep (w1 :: ws1)) := by
        simp [countc]
      rw [hc]
      simp only [List.length_cons] at ih ⊢
      omega

theorem mem_pad3 {w : PyStr} {x : Char} (hx : x ∈ pad3 w) :
    x = '.' ∨ x = '0' ∨ x ∈ w := by
  unfold pad3 at hx
  by_cases h : (splitOnChar '.' w).length < 3
  · rw [if_pos h] at hx
    rcases mem_joinSep hx with h' | ⟨p, hp, hxp⟩
    · exact Or.inl h'
    · rcases List.mem_append.1 hp with hp | hp
      · exact Or.inr (Or.inr (mem_splitOnChar hp x hxp))
      · have hp0 := List.eq_of_mem_replicate hp
        subst hp0
        simp at hxp
        subst hxp
        exact Or.inr (Or.inl rfl)
  · rw [if_neg h] at hx
    exact Or.inr (Or.inr hx)

theorem pad3_countc (w : PyStr) : 2 ≤ countc '.' (pad3 w) := by
  unfold pad3
  by_cases h : (splitOnChar '.' w).length < 3
  · rw [if_pos h]
    have h1 : 1 ≤ (splitOnChar '.' w).length := by
      rcases hs : splitOnChar '.' w with _ | ⟨a, b⟩
      · exact absurd hs (splitOnChar_ne_nil _ _)
      · simp
    have hj := joinSep_countc '.' (splitOnChar '.' w ++
      List.replicate (3 - (splitOnChar '.' w).length) ['0'])
    rw [List.length_append, List.length_replicate] at hj
    omega
  · rw [if_neg h]
    have := splitOnChar_length '.' w
    omega

theorem countc_map_ge (ch : Char) (f : Char → Char) (hf : f ch = ch)
    (l : PyStr) : countc ch l ≤ countc ch (l.map f) := by
  induction l with
  | nil => simp
  | cons c rest ih =>
    simp only [List.map_cons, countc]
    by_cases h : c = ch
    · subst h
      rw [hf]
      have h1 : (if c = c then (1 : Nat) else 0) = 1 := if_pos rfl
      rw [h1]
      omega
    · rw [if_neg h]
      have h0 : (0 : Nat) ≤ if f c = ch then 1 else 0 := Nat.zero_le _
      omega

theorem countc_dropWhile (ch : Char) (p : Char → Bool)
    (hp : ∀ c, p c = true → ¬c = ch) (l : PyStr) :
    countc ch (l.dropWhile p) = countc ch l := by
  induction l with
  | nil => simp
  | cons c rest ih =>
    rw [List.dropWhile_cons]
    by_cases h : p c = true
    · rw [if_pos h, ih]
      simp [countc, hp c h]
    · rw [if_neg h]

/-- The dot count of the fully processed token (pad, replace, strip) is
at least two. -/
theorem countc_processed (w : PyStr) :
    2 ≤ countc '.' (lstripSpec (replaceChar '*' '0' (replaceChar 'X' '0'
      (replaceChar 'x' '0' (pad3 w))))) := by
  have h0 := pad3_countc w
  have h1 := countc_map_ge '.' (fun c => if c = 'x' then '0' else c)
    (by simp) (pad3 w)
  have h2 := countc_map_ge '.' (fun c => if c = 'X' then '0' else c)
    (by simp) (replaceChar 'x' '0' (pad3 w))
  have h3 := countc_map_ge '.' (fun c => if c = '*' then '0' else c)
    (by simp) (replaceChar 'X' '0' (replaceChar 'x' '0' (pad3 w)))
  have h4 := countc_dropWhile '.' isStripChar
    (by intro c hc hcd; subst hcd; simp [isStripChar] at hc)
    (replaceChar '*' '0' (replaceChar 'X' '0' (replaceChar 'x' '0' (pad3 w))))
  simp only [replaceChar, lstripSpec] at h1 h2 h3 h4 ⊢
  omega

theorem countc_pos_ne_nil {ch : Char} {l : PyStr}
    (h : 0 < countc ch l) : l ≠ [] := by
  intro hl
  subst hl
  simp [countc] at h

theorem takeWhile_all {p : Char → Bool} : ∀ {l : PyStr},
    (∀ x ∈ l, p x = true) → l.takeWhile p = l := by
  intro l
  induction l with
  | nil => simp
  | cons c rest ih =>
    intro h
    rw [List.takeWhile_cons, if_pos (h c (by simp)),
      ih (fun x hx => h x (List.mem_cons_of_mem _ hx))]

theorem dropWhile_idem (p : Char → Bool) (l : PyStr) :
    (l.dropWhile p).dropWhile p = l.dropWhile p := by
  induction l with
  | nil => simp
  | cons c rest ih =>
    rw [List.dropWhile_cons]
    by_cases h : p c = true
    · rw [if_pos h]; exact ih
    · rw [if_neg h, List.dropWhile_cons, if_neg h]

theorem dropWhile_head_false {p : Char → Bool} : ∀ {l : PyStr}
    {c : Char} {rest : PyStr}, l.dropWhile p = c :: rest → p c = false := by
  intro l
  induction l with
  | nil => intro c rest h; cases h
  | cons a l ih =>
    intro c rest h
    rw [List.dropWhile_cons] at h
    by_cases ha : p a = true
    · rw [if_pos ha] at h
      exact ih h
    · rw [if_neg ha] at h
      injection h with h1 h2
      subst h1
      exact Bool.eq_false_iff.2 ha

theorem firstToken_mem {l w : PyStr} (h : firstToken l = some w) :
    ∀ x ∈ w, x ∈ l ∧ pyIsSpace x = false := by
  unfold firstToken at h
  rcases hd : l.dropWhile pyIsSpace with _ | ⟨c, rest⟩
  · rw [hd] at h; cases h
  · rw [hd] at h
    injection h with h1
    subst h1
    intro x hx
    rcases List.mem_cons.1 hx with hx | hx
    · subst hx
      constructor
      · exact (List.dropWhile_sublist pyIsSpace).mem (by rw [hd]; simp)
      · exact dropWhile_head_false hd
    · have hxr : x ∈ rest := (List.takeWhile_sublist _).mem hx
      constructor
      · exact (List.dropWhile_sublist pyIsSpace).mem
          (by rw [hd]; exact List.mem_cons_of_mem _ hxr)
      · have := List.mem_takeWhile_imp hx
        simpa using this

theorem firstToken_none_all_space {l : PyStr} (h : firstToken l = none) :
    ∀ x ∈ l, pyIsSpace x = true := by
  unfold firstToken at h
  rcases hd : l.dropWhile pyIsSpace with _ | ⟨c, rest⟩
  · exact List.dropWhile_eq_nil_iff.1 hd
  · rw [hd] at h; cases h

theorem firstToken_self {l : PyStr} (hne : l ≠ [])
    (hns : ∀ x ∈ l, pyIsSpace x = false) : firstToken l = some l := by
  rcases l with _ | ⟨c, rest⟩
  · exact absurd rfl hne
  · have hd : (c :: rest).dropWhile pyIsSpace = c :: rest := by
      rw [List.dropWhile_cons, if_neg (by simp [hns c (by simp)])]
    have htw : rest.takeWhile (fun d => !pyIsSpace d) = rest :=
      takeWhile_all (fun x hx => by simp [hns x (List.mem_cons_of_mem _ hx)])
    simp only [firstToken, hd, htw]

theorem mem_replaceChar {a b : Char} {l : PyStr} {x : Char}
    (hx : x ∈ replaceChar a b l) : x = b ∨ x ∈ l := by
  unfold replaceChar at hx
  rcases List.mem_map.1 hx with ⟨c, hc, hfc⟩
  by_cases h : c = a
  · rw [if_pos h] at hfc
    exact Or.inl hfc.symm
  · rw [if_neg h] at hfc
    subst hfc
    exact Or.inr hc

theorem replaceChar_no {a b : Char} (hab : ¬b = a) {l : PyStr} :
    ∀ x ∈ replaceChar a b l, ¬x = a := by
  intro x hx
  unfold replaceChar at hx
  rcases List.mem_map.1 hx with ⟨c, hc, hfc⟩
  by_cases h : c = a
  · rw [if_pos h] at hfc
    subst hfc
    exact hab
  · rw [if_neg h] at hfc
    subst hfc
    exact h

theorem replaceChar_pres_no {a b ch : Char} (hb : ¬b = ch) {l : PyStr}
    (hl : ∀ x ∈ l, ¬x = ch) : ∀ x ∈ replaceChar a b l, ¬x = ch := by
  intro x hx
  rcases mem_replaceChar hx with h | h
  · subst h; exact hb
  · exact hl x h

theorem replaceChar_id {a b : Char} {l : PyStr} (h : ∀ x ∈ l, ¬x = a) :
    replaceChar a b l = l := by
  induction l with
  | nil => rfl
  | cons c rest ih =>
    unfold replaceChar at ih ⊢
    simp only [List.map_cons]
    rw [if_neg (h c (by simp)), ih (fun x hx => h x (List.mem_cons_of_mem _ hx))]

/-- The normalizer on an input that is not short-circuited by rule 1 and
has a first token. -/
theorem translate_not_tag {s w : PyStr} (htag : hasTagLetter s = false)
    (hft : firstToken s = some w) :
    translate_version s = some (lstripSpec (replaceChar '*' '0'
      (replaceChar 'X' '0' (replaceChar 'x' '0' (pad3 w))))) := by
  unfold translate_version
  rw [if_neg (by simp [htag]), hft]

/-- Any output of the normalizer is a fixed point of the normalizer. -/
theorem translate_fixed {s t : PyStr} (h : translate_version s = some t) :
    translate_version t = some t := by
  by_cases htag : hasTagLetter s = true
  · unfold translate_version at h
    rw [if_pos htag] at h
    injection h with h1
    subst h1
    unfold translate_version
    rw [if_pos htag]
  · have htag' : hasTagLetter s = false := Bool.eq_false_iff.2 htag
    rcases hft : firstToken s with _ | w
    · rw [translate_version, if_neg (by simp [htag']), hft] at h
      cases h
    · rw [translate_not_tag htag' hft] at h
      injection h with h1
      have hsrc := List.any_eq_false.1 htag'
      -- characters of the first token: in `s` and not whitespace
      have hwmem := firstToken_mem hft
      -- the final string and its layers
      set l1 := replaceChar 'x' '0' (pad3 w) with hl1def
      set l2 := replaceChar 'X' '0' l1 with hl2def
      set l3 := replaceChar '*' '0' l2 with hl3def
      -- membership transfer down to pad3 w
      have hmem3 : ∀ x ∈ t, x ∈ l3 := by
        intro x hx
        rw [← h1] at hx
        exact (List.dropWhile_sublist isStripChar).mem hx
      have hmemPad : ∀ x ∈ t, x = '0' ∨ x ∈ pad3 w := by
        intro x hx
        rcases mem_replaceChar (hmem3 x hx) with h' | h'
        · exact Or.inl h'
        · rcases mem_replaceChar h' with h'' | h''
          · exact Or.inl h''
          · rcases mem_replaceChar h'' with h3 | h3
            · exact Or.inl h3
            · exact Or.inr h3
      have hchar : ∀ x ∈ t, x = '0' ∨ x = '.' ∨ (x ∈ s ∧ pyIsSpace x = false) := by
        intro x hx
        rcases hmemPad x hx with h' | h'
        · exact Or.inl h'
        · rcases mem_pad3 h' with h'' | h'' | h''
          · exact Or.inr (Or.inl h'')
          · exact Or.inl h''
          · exact Or.inr (Or.inr (hwmem x h''))
      -- rule 1 does not fire on the output
      have htagt : hasTagLetter t = false := by
        unfold hasTagLetter
        rw [List.any_eq_false]
        intro x hx
        rcases hchar x hx with h' | h' | h'
        · subst h'; decide
        · subst h'; decide
        · exact hsrc x h'.1
      -- the output has at least two dots
      have hcnt : 2 ≤ countc '.' t := by
        rw [← h1]
        exact countc_processed w
      have hne : t ≠ [] := @countc_pos_ne_nil '.' t (by omega)
      have hnospace : ∀ x ∈ t, pyIsSpace x = false := by
        intro x hx
        rcases hchar x hx with h' | h' | h'
        · subst h'; decide
        · subst h'; decide
        · exact h'.2
      have hft' : firstToken t = some t := firstToken_self hne hnospace
      -- padding is the identity on the output
      have hpad : pad3 t = t := by
        unfold pad3
        rw [if_neg]
        rw [splitOnChar_length]
        omega
      -- the replacements are the identity on the output
      have hnox1 : ∀ x ∈ l1, ¬x = 'x' := replaceChar_no (by decide)
      have hnox2 : ∀ x ∈ l2, ¬x = 'x' := replaceChar_pres_no (by decide) hnox1
      have hnox3 : ∀ x ∈ l3, ¬x = 'x' := replaceChar_pres_no (by decide) hnox2
      have hnoX2 : ∀ x ∈ l2, ¬x = 'X' := replaceChar_no (by decide)
      have hnoX3 : ∀ x ∈ l3, ¬x = 'X' := replaceChar_pres_no (by decide) hnoX2
      have hnoS3 : ∀ x ∈ l3, ¬x = '*' := replaceChar_no (by decide)
      have hrx : replaceChar 'x' '0' t = t :=
        replaceChar_id (fun x hx => hnox3 x (hmem3 x hx))
      have hrX : replaceChar 'X' '0' t = t :=
        replaceChar_id (fun x hx => hnoX3 x (hmem3 x hx))
      have hrS : replaceChar '*' '0' t = t :=
        replaceChar_id (fun x hx => hnoS3 x (hmem3 x hx))
      have hstrip : lstripSpec t = t := by
        rw [← h1]
        unfold lstripSpec
        exact dropWhile_idem isStripChar _
      rw [translate_not_tag htagt hft', hpad, hrx, hrX, hrS, hstrip]

/- ### Renderer lemmas -/

/-- Invariant of the renderer's child loop, assuming the invariant of the
walk function it is given: the text grows by one rendered line per newly
discovered identity, the discovered list grows by exactly those
identities, and no identity already discovered is printed again. -/
theorem getChildrenF_inv (walk : PkgId → PyStr → List PkgId → Nat →
      Option (PyStr × List PkgId))
    (hwalk : ∀ pkg t0 d0 depth t d, pkg ∉ d0 →
      walk pkg t0 d0 depth = some (t, d) →
      ∃ ps : List (PkgId × Nat),
        t = t0 ++ (ps.map (fun q => renderLine q.1 q.2)).flatten ∧
        d = d0 ++ ps.map Prod.fst ∧ (ps.map Prod.fst).Nodup ∧
        ∀ x ∈ ps.map Prod.fst, x ∉ d0) :
    ∀ (deps : List PkgId) (t0 : PyStr) (d0 : List PkgId) (depth : Nat)
      (t : PyStr) (d : List PkgId),
      getChildrenF walk deps t0 d0 depth = some (t, d) →
      ∃ ps : List (PkgId × Nat),
        t = t0 ++ (ps.map (fun q => renderLine q.1 q.2)).flatten ∧
        d = d0 ++ ps.map Prod.fst ∧ (ps.map Prod.fst).Nodup ∧
        ∀ x ∈ ps.map Prod.fst, x ∉ d0 := by
  intro deps
  induction deps with
  | nil =>
    intro t0 d0 depth t d h
    simp only [getChildrenF] at h
    cases h
    exact ⟨[], by simp, by simp, by simp, by simp⟩
  | cons dep rest ih =>
    intro t0 d0 depth t d h
    simp only [getChildrenF] at h
    by_cases hd : dep ∈ d0
    · rw [if_pos hd] at h
      exact ih t0 d0 depth t d h
    · rw [if_neg hd] at h
      rcases hw : walk dep t0 d0 (depth + 1) with _ | ⟨t1, d1⟩
      · simp only [hw] at h
        cases h
      · simp only [hw] at h
        obtain ⟨ps1, ht1, hd1, hnd1, hnew1⟩ :=
          hwalk dep t0 d0 (depth + 1) t1 d1 hd hw
        obtain ⟨ps2, ht2, hd2, hnd2, hnew2⟩ := ih t1 d1 depth t d h
        refine ⟨ps1 ++ ps2, ?_, ?_, ?_, ?_⟩
        · rw [ht2, ht1]
          simp [List.flatten_append, List.append_assoc]
        · rw [hd2, hd1]
          simp [List.append_assoc]
        · rw [List.map_append]
          refine List.Nodup.append hnd1 hnd2 ?_
          intro x hx1 hx2
          have h2 := hnew2 x hx2
          rw [hd1] at h2
          exact h2 (List.mem_append.2 (Or.inr hx1))
        · rw [List.map_append]
          intro x hx
          rcases List.mem_append.1 hx with hx | hx
          · exact hnew1 x hx
          · intro hx0
            have h2 := hnew2 x hx
            rw [hd1] at h2
            exact h2 (List.mem_append.2 (Or.inl hx0))

/-- Master invariant of the renderer: on success, the produced text is the
initial text followed by exactly one rendered line per newly discovered
identity, pairwise distinct and disjoint from the initially discovered
set. -/
theorem getTree_inv : ∀ (n : Nat) (c : Cache) (pkg : PkgId) (t0 : PyStr)
    (d0 : List PkgId) (depth : Nat) (t : PyStr) (d : List PkgId),
    pkg ∉ d0 → getTree n c pkg t0 d0 depth = some (t, d) →
    ∃ ps : List (PkgId × Nat),
      t = t0 ++ (ps.map (fun q => renderLine q.1 q.2)).flatten ∧
      d = d0 ++ ps.map Prod.fst ∧ (ps.map Prod.fst).Nodup ∧
      ∀ x ∈ ps.map Prod.fst, x ∉ d0 := by
  intro n
  induction n with
  | zero => intro c pkg t0 d0 depth t d hp h; cases h
  | succ n ih =>
    intro c pkg t0 d0 depth t d hp h
    rcases hl : cacheLookup c pkg with _ | deps
    · simp only [getTree, hl] at h
      cases h
    · simp only [getTree, hl] at h
      obtain ⟨ps2, ht2, hd2, hnd2, hnew2⟩ := getChildrenF_inv _
        (fun p a b dep t' d' hpb hw => ih c p a b dep t' d' hpb hw)
        deps _ _ depth t d h
      refine ⟨(pkg, depth) :: ps2, ?_, ?_, ?_, ?_⟩
      · rw [ht2]
        simp [List.append_assoc]
      · rw [hd2]
        simp [List.append_assoc]
      · simp only [List.map_cons]
        refine List.nodup_cons.2 ⟨?_, hnd2⟩
        intro hmem
        exact hnew2 pkg hmem (by simp)
      · simp only [List.map_cons]
        intro x hx
        rcases List.mem_cons.1 hx with hx | hx
        · subst hx; exact hp
        · intro hx0
          exact hnew2 x hx (List.mem_append.2 (Or.inl hx0))

/- ### Persistence lemmas -/

theorem cacheHas_append (a b : Cache) (x : PkgId) :
    cacheHas (a ++ b) x = (cacheHas a x || cacheHas b x) := by
  induction a with
  | nil => simp [cacheHas, cacheLookup]
  | cons e rest ih =>
    by_cases h : e.1 = x
    · simp [cacheHas, cacheLookup, h]
    · simp only [List.cons_append, cacheHas, cacheLookup, if_neg h] at ih ⊢
      exact ih

theorem cacheSet_not_has {c : Cache} {id : PkgId} {v : List PkgId}
    (h : cacheHas c id = false) : cacheSet c id v = c ++ [(id, v)] := by
  induction c with
  | nil => simp [cacheSet]
  | cons e rest ih =>
    by_cases he : e.1 = id
    · simp [cacheHas, cacheLookup, he] at h
    · simp only [cacheHas, cacheLookup, if_neg he] at h
      simp [cacheSet, he, ih h]

/-- Folding the persisted records back into a fresh mapping appends each
record in order, provided no key collides with the accumulator. -/
theorem load_store_aux : ∀ (c acc : Cache),
    (∀ k ∈ c.map Prod.fst, cacheHas acc k = false) → keysNodup c →
    (update_cache c).foldl
      (fun a it => cacheSet a (it.1, it.2.1) it.2.2) acc = acc ++ c := by
  intro c
  induction c with
  | nil =>
    intro acc h hn
    simp [update_cache]
  | cons e rest ih =>
    intro acc h hn
    obtain ⟨⟨n, v⟩, ds⟩ := e
    simp only [update_cache, List.map_cons, List.foldl_cons]
    have hacc : cacheHas acc (n, v) = false := h (n, v) (by simp)
    rw [cacheSet_not_has hacc]
    have hkey : (n, v) ∉ rest.map Prod.fst := by
      rw [keysNodup, List.map_cons, List.nodup_cons] at hn
      exact hn.1
    have hrest : ∀ k ∈ rest.map Prod.fst,
        cacheHas (acc ++ [((n, v), ds)]) k = false := by
      intro k hk
      rw [cacheHas_append]
      have h1 : cacheHas acc k = false := h k (by simp [hk])
      have h2 : cacheHas [((n, v), ds)] k = false := by
        have : ¬(n, v) = k := fun hh => hkey (hh ▸ hk)
        simp [cacheHas, cacheLookup, this]
      rw [h1, h2]
      rfl
    have hn' : keysNodup rest := by
      rw [keysNodup, List.map_cons, List.nodup_cons] at hn
      exact hn.2
    have := ih (acc ++ [((n, v), ds)]) hrest hn'
    unfold update_cache at this
    rw [this, List.append_assoc]
    rfl

/-- Loading the persisted image of a key-unique cache reconstructs the
cache exactly. -/
theorem load_update_cache {c : Cache} (hn : keysNodup c) :
    load_store (update_cache c) = c := by
  have := load_store_aux c [] (by intro k hk; rfl) hn
  simpa [load_store] using this

/- ### Claims about the normalizer -/

/-- The normalizer on an input that is not short-circuited by rule 1 and
whose `split()` comes back empty: the `IndexError` path. -/
theorem translate_not_tag_none {s : PyStr} (htag : hasTagLetter s = false)
    (hft : firstToken s = none) : translate_version s = none := by
  unfold translate_version
  rw [if_neg (by simp [htag]), hft]

/-- C4: the version normalizer is idempotent — for every specifier on
which it is defined (returns rather than raises), feeding the output
back in returns the output unchanged — and it satisfies the concrete
equalities normalize "^1.2.3" = "1.2.3", normalize "~1.0" = "1.0.0",
normalize "1.x.0" = "1.0.0", normalize "1.1.*" = "1.1.0", and
normalize "latest" = "latest". -/
theorem c4_normalizer_idempotent :
    (∀ s t : PyStr, translate_version s = some t →
      translate_version t = some t) ∧
    translate_version ("^1.2.3".toList) = some ("1.2.3".toList) ∧
    translate_version ("~1.0".toList) = some ("1.0.0".toList) ∧
    translate_version ("1.x.0".toList) = some ("1.0.0".toList) ∧
    translate_version ("1.1.*".toList) = some ("1.1.0".toList) ∧
    translate_version ("latest".toList) = some ("latest".toList) :=
  ⟨fun _ _ h => translate_fixed h, by decide, by decide, by decide,
    by decide, by decide⟩

/-- Witness for C4: idempotence applied at the concrete specifier
"~1.0", whose normal form is "1.0.0". -/
theorem c4_normalizer_idempotent_witness :
    translate_version ("1.0.0".toList) = some ("1.0.0".toList) :=
  c4_normalizer_idempotent.1 ("~1.0".toList) ("1.0.0".toList) (by decide)

/-- C5 counterexample: on the empty string the normalizer raises an
`IndexError` (`"".split()` is empty and rule 2 indexes `[0]`), modelled
as `none`: it does not return a best-effort string for every input. -/
theorem c5_counterexample : translate_version ("".toList) = none := by
  decide

/-- C5 amended: for every input containing at least one non-whitespace
character, the normalizer never raises: it returns a best-effort
string.  (Inputs that are empty or all whitespace raise `IndexError`.) -/
theorem c5_no_raise_nonblank (s : PyStr)
    (h : ∃ c ∈ s, pyIsSpace c = false) :
    (translate_version s).isSome = true := by
  by_cases htag : hasTagLetter s = true
  · simp [translate_version, htag]
  · have htag' : hasTagLetter s = false := Bool.eq_false_iff.2 htag
    rcases hft : firstToken s with _ | w
    · obtain ⟨c, hc, hcs⟩ := h
      have := firstToken_none_all_space hft c hc
      rw [this] at hcs
      cases hcs
    · rw [translate_not_tag htag' hft]
      rfl

/-- Witness for C5 amended: "~1.0" contains a non-whitespace character
and the normalizer returns on it. -/
theorem c5_no_raise_nonblank_witness :
    (translate_version ("~1.0".toList)).isSome = true :=
  c5_no_raise_nonblank ("~1.0".toList) ⟨'~', by decide, by decide⟩

/-- C6 counterexample: "1.2.3.4" is not short-circuited by rule 1, yet
the normalizer returns it unchanged with four dot-separated segments,
not exactly three: the padding step only adds segments, it never removes
them. -/
theorem c6_counterexample :
    hasTagLetter ("1.2.3.4".toList) = false ∧
    translate_version ("1.2.3.4".toList) = some ("1.2.3.4".toList) ∧
    (splitOnChar '.' ("1.2.3.4".toList)).length = 4 :=
  ⟨by decide, by decide, by decide⟩

/-- C6 amended: for every input not short-circuited by rule 1 on which
the normalizer is defined, the output has at least three dot-separated
segments. -/
theorem c6_at_least_three_segments (s t : PyStr)
    (htag : hasTagLetter s = false) (h : translate_version s = some t) :
    3 ≤ (splitOnChar '.' t).length := by
  rcases hft : firstToken s with _ | w
  · rw [translate_not_tag_none htag hft] at h
    cases h
  · rw [translate_not_tag htag hft] at h
    injection h with h1
    rw [splitOnChar_length]
    have hc := countc_processed w
    rw [h1] at hc
    omega

/-- Witness for C6 amended: "1.1" is padded to "1.1.0", which has three
segments. -/
theorem c6_at_least_three_segments_witness :
    3 ≤ (splitOnChar '.' ("1.1.0".toList)).length :=
  c6_at_least_three_segments ("1.1".toList) ("1.1.0".toList)
    (by decide) (by decide)

/- ### Claims about the resolver -/

/-- The two-package registry of the cycle scenario: `a` depends on `b`
and `b` depends on `a` (each declared under `dependencies` with the
other's version string as raw specifier). -/
def cycleReg (an av bn bv : PyStr) : Registry := fun i =>
  if i = (an, av) then some ⟨some [(bn, bv)], none⟩
  else if i = (bn, bv) then some ⟨some [(an, av)], none⟩
  else none

/-- C1: for the mutual-cycle dependency graph (A depends on B and B
depends on A, with normalization-stable version strings), resolving A
terminates at every recursion budget of at least two — the pre-registered
empty cache entry for A satisfies the cyclic back-reference — and
afterwards both A and B have cache entries (A maps to [B], B maps
to [A]). -/
theorem c1_cycle_terminates (an av bn bv : PyStr)
    (hne : ((an, av) : PkgId) ≠ (bn, bv))
    (ha : translate_version av = some av)
    (hb : translate_version bv = some bv) (n : Nat) :
    resolveFuel (n + 2) (cycleReg an av bn bv) (an, av) [] =
      .ok [((an, av), [(bn, bv)]), ((bn, bv), [(an, av)])]
        [(an, av), (bn, bv)] ∧
    cacheLookup [((an, av), [(bn, bv)]), ((bn, bv), [(an, av)])]
      (an, av) = some [(bn, bv)] ∧
    cacheLookup [((an, av), [(bn, bv)]), ((bn, bv), [(an, av)])]
      (bn, bv) = some [(an, av)] := by
  have hne' : ((bn, bv) : PkgId) ≠ (an, av) := Ne.symm hne
  refine ⟨?_, by simp [cacheLookup], by simp [cacheLookup, hne]⟩
  simp [resolveFuel, cycleReg, addDepsF, pickDeps, cacheSet,
    cacheAppend, cacheHas, cacheLookup, ha, hb, hne, hne']

/-- Witness for C1: the concrete cycle a@1.0.0 ↔ b@2.0.0 at fuel 2. -/
theorem c1_cycle_terminates_witness :
    resolveFuel (0 + 2)
      (cycleReg ("a".toList) ("1.0.0".toList) ("b".toList) ("2.0.0".toList))
      ("a".toList, "1.0.0".toList) [] =
      .ok [(("a".toList, "1.0.0".toList), [("b".toList, "2.0.0".toList)]),
           (("b".toList, "2.0.0".toList), [("a".toList, "1.0.0".toList)])]
        [("a".toList, "1.0.0".toList), ("b".toList, "2.0.0".toList)] ∧
    cacheLookup [(("a".toList, "1.0.0".toList), [("b".toList, "2.0.0".toList)]),
        (("b".toList, "2.0.0".toList), [("a".toList, "1.0.0".toList)])]
      ("a".toList, "1.0.0".toList) = some [("b".toList, "2.0.0".toList)] ∧
    cacheLookup [(("a".toList, "1.0.0".toList), [("b".toList, "2.0.0".toList)]),
        (("b".toList, "2.0.0".toList), [("a".toList, "1.0.0".toList)])]
      ("b".toList, "2.0.0".toList) = some [("a".toList, "1.0.0".toList)] :=
  c1_cycle_terminates ("a".toList) ("1.0.0".toList) ("b".toList)
    ("2.0.0".toList) (by decide) (by decide) (by decide) 0

/-- A one-package registry: `a@1.0.0` is a leaf (no dependency fields). -/
def c2Reg : Registry := fun i =>
  if i = ("a".toList, "1.0.0".toList) then some ⟨none, none⟩ else none

/-- C2 counterexample: resolving the leaf identity a@1.0.0 twice fetches
it twice.  After the first resolution the cache has an entry for it,
yet the second top-level resolution still fetches it (its trace contains
the identity instead of being empty): the cache fast path guards only
dependency resolutions, not the root. -/
theorem c2_counterexample :
    resolveFuel 1 c2Reg ("a".toList, "1.0.0".toList) [] =
      .ok [(("a".toList, "1.0.0".toList), [])]
        [("a".toList, "1.0.0".toList)] ∧
    cacheHas [(("a".toList, "1.0.0".toList), [])]
      ("a".toList, "1.0.0".toList) = true ∧
    resolveFuel 1 c2Reg ("a".toList, "1.0.0".toList)
        [(("a".toList, "1.0.0".toList), [])] =
      .ok [(("a".toList, "1.0.0".toList), [])]
        [("a".toList, "1.0.0".toList)] :=
  ⟨by decide, by decide, by decide⟩

/-- C2 amended: within a single resolution no identity is fetched more
than once, and an identity already cached when the resolution starts is
never fetched — except the root identity itself, which a top-level
resolution always fetches, so resolving the same identity twice fetches
it once per top-level call. -/
theorem c2_memoization (n : Nat) (reg : Registry) (id : PkgId)
    (c c' : Cache) (tr : List PkgId)
    (h : resolveFuel n reg id c = .ok c' tr) :
    tr.Nodup ∧ ∀ x ∈ tr, x = id ∨ cacheHas c x = false := by
  obtain ⟨_, _, hnd, hnew, _, _, _⟩ := resolveFuel_inv n reg id c c' tr h
  exact ⟨hnd, hnew⟩

/-- Witness for C2 amended: the fetch trace of resolving a@1.0.0 from
the empty cache. -/
theorem c2_memoization_witness :
    ([("a".toList, "1.0.0".toList)] : List PkgId).Nodup ∧
    ∀ x ∈ ([("a".toList, "1.0.0".toList)] : List PkgId),
      x = ("a".toList, "1.0.0".toList) ∨ cacheHas [] x = false :=
  c2_memoization 1 c2Reg ("a".toList, "1.0.0".toList) []
    [(("a".toList, "1.0.0".toList), [])]
    [("a".toList, "1.0.0".toList)] (by decide)

/-- Reachability through the dependency graph stored in a cache:
starting from `root` and repeatedly following the stored dependency
sequences. -/
inductive CacheReach (c : Cache) (root : PkgId) : PkgId → Prop
  | refl : CacheReach c root root
  | step {y z : PkgId} {ds : List PkgId} : CacheReach c root y →
      cacheLookup c y = some ds → z ∈ ds → CacheReach c root z

theorem closed_reach {c : Cache} {root x : PkgId}
    (hcl : closedCache c = true) (hroot : cacheHas c root = true)
    (h : CacheReach c root x) : cacheHas c x = true := by
  induction h with
  | refl => exact hroot
  | step hr hl hz => exact (closedCache_iff c).1 hcl _ (cacheLookup_mem hl) _ hz

/-- C3: after a resolution completes successfully, starting from a cache
whose entries mention only cached identities and whose keys are unique
(the empty cache in particular), the cache has an entry for the resolved
identity and for every identity transitively reachable from it through
the stored dependency sequences; every identity appearing in any entry's
sequence is itself a key, and keys stay pairwise distinct, so each
reachable identity has exactly one entry. -/
theorem c3_cache_closure (n : Nat) (reg : Registry) (id : PkgId)
    (c c' : Cache) (tr : List PkgId) (hcl : closedCache c = true)
    (hk : keysNodup c) (h : resolveFuel n reg id c = .ok c' tr) :
    cacheHas c' id = true ∧
    (∀ x, CacheReach c' id x → cacheHas c' x = true) ∧
    closedCache c' = true ∧ keysNodup c' := by
  obtain ⟨_, hhas, _, _, _, hclp, hkp⟩ := resolveFuel_inv n reg id c c' tr h
  have hcl' := hclp hcl
  exact ⟨hhas, fun x hx => closed_reach hcl' hhas hx, hcl', hkp hk⟩

/-- The registry for the C3 witness: p@1.0.0 depends on q@1.0.0, which
is a leaf. -/
def c3Reg : Registry := fun i =>
  if i = ("p".toList, "1.0.0".toList) then
    some ⟨some [("q".toList, "1.0.0".toList)], none⟩
  else if i = ("q".toList, "1.0.0".toList) then some ⟨none, none⟩
  else none

/-- Witness for C3: resolving p@1.0.0 from the empty cache. -/
theorem c3_cache_closure_witness :
    cacheHas [(("p".toList, "1.0.0".toList), [("q".toList, "1.0.0".toList)]),
        (("q".toList, "1.0.0".toList), [])] ("p".toList, "1.0.0".toList) = true ∧
    (∀ x, CacheReach
        [(("p".toList, "1.0.0".toList), [("q".toList, "1.0.0".toList)]),
         (("q".toList, "1.0.0".toList), [])] ("p".toList, "1.0.0".toList) x →
      cacheHas [(("p".toList, "1.0.0".toList), [("q".toList, "1.0.0".toList)]),
        (("q".toList, "1.0.0".toList), [])] x = true) ∧
    closedCache [(("p".toList, "1.0.0".toList), [("q".toList, "1.0.0".toList)]),
      (("q".toList, "1.0.0".toList), [])] = true ∧
    keysNodup [(("p".toList, "1.0.0".toList), [("q".toList, "1.0.0".toList)]),
      (("q".toList, "1.0.0".toList), [])] :=
  c3_cache_closure 2 c3Reg ("p".toList, "1.0.0".toList) []
    [(("p".toList, "1.0.0".toList), [("q".toList, "1.0.0".toList)]),
     (("q".toList, "1.0.0".toList), [])]
    [("p".toList, "1.0.0".toList), ("q".toList, "1.0.0".toList)]
    (by decide) (by simp [keysNodup]) (by decide)

/-- The registry for C10: only the identity with the RAW specifier
"^1.2.3" exists (as a leaf); the normalized "1.2.3" has no entry. -/
def c10Reg : Registry := fun i =>
  if i = ("a".toList, "^1.2.3".toList) then some ⟨none, none⟩ else none

/-- C10 counterexample: the route never normalizes the caller-supplied
version.  With raw specifier "^1.2.3" (normal form "1.2.3"), resolution
succeeds with the root fetched under and cached under "^1.2.3"; the
normalized identity is neither fetched nor cached. -/
theorem c10_counterexample :
    translate_version ("^1.2.3".toList) = some ("1.2.3".toList) ∧
    present_dependencies 2 c10Reg ("a".toList) ("^1.2.3".toList) [] =
      some (treeHeader ("a".toList) ("^1.2.3".toList) ++
          renderLine ("a".toList, "^1.2.3".toList) 0,
        [(("a".toList, "^1.2.3".toList), [])],
        [("a".toList, "^1.2.3".toList, [])],
        [("a".toList, "^1.2.3".toList)]) ∧
    cacheHas [(("a".toList, "^1.2.3".toList), [])]
      ("a".toList, "1.2.3".toList) = false :=
  ⟨by decide, by rfl, by decide⟩

/-- C10 amended: the route resolves the caller-supplied (name, version)
pair exactly as given: on success the raw pair is the first identity
fetched and is the identity cached for the root; only dependency
specifiers go through the normalizer. -/
theorem c10_root_unnormalized (fuel : Nat) (reg : Registry)
    (pkg_name version : PyStr) (c0 : Cache) (t : PyStr) (c : Cache)
    (st : List StoreRec) (tr : List PkgId)
    (h : present_dependencies fuel reg pkg_name version c0 =
      some (t, c, st, tr)) :
    (∃ tr2, tr = (pkg_name, version) :: tr2) ∧
    cacheHas c (pkg_name, version) = true := by
  unfold present_dependencies at h
  rcases hr : resolveFuel fuel reg (pkg_name, version) c0 with
    ⟨c1, tr1⟩ | ⟨c1⟩ | ⟨⟩
  all_goals simp only [hr] at h
  · rcases hg : getTree fuel c1 (pkg_name, version)
        (treeHeader pkg_name version) [] 0 with _ | ⟨t1, d1⟩
    all_goals simp only [hg] at h
    · cases h
    · simp only [Option.some.injEq, Prod.mk.injEq] at h
      obtain ⟨ht, hc, hst, htr⟩ := h
      subst ht
      subst hc
      subst htr
      exact ⟨resolveFuel_trace_head hr,
        (resolveFuel_inv fuel reg _ c0 _ _ hr).2.1⟩
  · cases h
  · cases h

/-- Witness for C10 amended: the successful resolution of a@^1.2.3. -/
theorem c10_root_unnormalized_witness :
    (∃ tr2, ([("a".toList, "^1.2.3".toList)] : List PkgId) =
      ("a".toList, "^1.2.3".toList) :: tr2) ∧
    cacheHas [(("a".toList, "^1.2.3".toList), [])]
      ("a".toList, "^1.2.3".toList) = true :=
  c10_root_unnormalized 2 c10Reg ("a".toList) ("^1.2.3".toList) []
    (treeHeader ("a".toList) ("^1.2.3".toList) ++
      renderLine ("a".toList, "^1.2.3".toList) 0)
    [(("a".toList, "^1.2.3".toList), [])]
    [("a".toList, "^1.2.3".toList, [])]
    [("a".toList, "^1.2.3".toList)] (by rfl)

/- ### Claims about persistence -/

/-- C8: for every in-memory cache state with unique keys (any state a
Python dict can hold), persisting it and loading the persisted records
reconstructs a mapping equal to the original: identity pairs and
ordered dependency sequences are preserved exactly, empty sequences
included. -/
theorem c8_cache_round_trip (c : Cache) (hn : keysNodup c) :
    load_store (update_cache c) = c :=
  load_update_cache hn

/-- Witness for C8: a two-entry cache with one empty and one non-empty
dependency sequence round-trips exactly. -/
theorem c8_cache_round_trip_witness :
    load_store (update_cache
      [(("a".toList, "1.0.0".toList), []),
       (("b".toList, "2.0.0".toList), [("a".toList, "1.0.0".toList)])]) =
      [(("a".toList, "1.0.0".toList), []),
       (("b".toList, "2.0.0".toList), [("a".toList, "1.0.0".toList)])] :=
  c8_cache_round_trip
    [(("a".toList, "1.0.0".toList), []),
     (("b".toList, "2.0.0".toList), [("a".toList, "1.0.0".toList)])]
    (by simp [keysNodup])

/-- C7 counterexample: the persisted store holding the JSON value `5` is
malformed (the loading loop cannot even draw items from it), yet loading
raises — `for item in cache` fails with an uncaught `TypeError` — and
the backing file is not removed; recovery covers only syntactic JSON
corruption. -/
theorem c7_counterexample :
    loadStore (.jnum 5) = none ∧
    init_cache (.json (.jnum 5)) = .raised (.json (.jnum 5)) :=
  ⟨rfl, rfl⟩

/-- C7 amended: cache load recovers automatically from an absent backing
file and from a syntactically invalid one — the in-memory cache comes up
empty and the invalid file is deleted — but a well-formed JSON store on
which the loading loop raises (a non-iterable top value, an item that
cannot be subscripted or lacks a needed field, a dependency entry that
does not unpack into exactly two values, or an unhashable key component)
raises to the caller with the file left in place; every other store,
regardless of the types of its values, loads without raising. -/
theorem c7_corrupt_recovery :
    init_cache .absent = .ok [] .absent ∧
    init_cache .invalidJson = .ok [] .absent ∧
    (∀ v : JVal, loadStore v = none →
      init_cache (.json v) = .raised (.json v)) ∧
    (∀ v records, loadStore v = some records →
      init_cache (.json v) = .ok (dynLoad records) (.json v)) := by
  refine ⟨rfl, rfl, ?_, ?_⟩
  · intro v hv
    simp only [init_cache, hv]
  · intro v records hv
    simp only [init_cache, hv]

/-- Witness for C7 amended: the store `7` raises and is kept, while the
duck-typed store `[{"name": 5, "version": "1.0", "deps": [[1, 2], "ab"]}]`
— numeric name, numeric dependency pair, two-character string dependency
entry — loads without raising. -/
theorem c7_corrupt_recovery_witness :
    init_cache (.json (.jnum 7)) = .raised (.json (.jnum 7)) ∧
    init_cache (.json (.arr [.obj [("name".toList, .jnum 5),
        ("version".toList, .jstr ("1.0".toList)),
        ("deps".toList, .arr [.arr [.jnum 1, .jnum 2],
          .jstr ("ab".toList)])]])) =
      .ok (dynLoad [((.jnum 5, .jstr ("1.0".toList)),
          [(.jnum 1, .jnum 2),
           (.jstr ("a".toList), .jstr ("b".toList))])])
        (.json (.arr [.obj [("name".toList, .jnum 5),
          ("version".toList, .jstr ("1.0".toList)),
          ("deps".toList, .arr [.arr [.jnum 1, .jnum 2],
            .jstr ("ab".toList)])]])) :=
  ⟨c7_corrupt_recovery.2.2.1 (.jnum 7) rfl,
   c7_corrupt_recovery.2.2.2
     (.arr [.obj [("name".toList, .jnum 5),
       ("version".toList, .jstr ("1.0".toList)),
       ("deps".toList, .arr [.arr [.jnum 1, .jnum 2],
         .jstr ("ab".toList)])]])
     [((.jnum 5, .jstr ("1.0".toList)),
       [(.jnum 1, .jnum 2),
        (.jstr ("a".toList), .jstr ("b".toList))])] rfl⟩

/- ### Claims about the renderer -/

/-- C9: whenever a render pass (which always starts with an empty
`discovered` list) succeeds, the produced text is the initial text
followed by exactly one rendered line per discovered identity, and the
discovered identities are pairwise distinct — no identity is printed
twice, even when it is reachable along several paths or lies on a
cycle. -/
theorem c9_no_duplicate_render (n : Nat) (c : Cache) (root : PkgId)
    (t0 t : PyStr) (d : List PkgId) (depth : Nat)
    (h : getTree n c root t0 [] depth = some (t, d)) :
    ∃ ps : List (PkgId × Nat),
      t = t0 ++ (ps.map (fun q => renderLine q.1 q.2)).flatten ∧
      d = ps.map Prod.fst ∧ (ps.map Prod.fst).Nodup := by
  obtain ⟨ps, ht, hd, hnd, _⟩ :=
    getTree_inv n c root t0 [] depth t d (by simp) h
  exact ⟨ps, ht, by simpa using hd, hnd⟩

/-- The cyclic two-entry cache used to witness C9: a and b list each
other as dependencies. -/
def c9Cache : Cache :=
  [(("a".toList, "1.0.0".toList), [("b".toList, "2.0.0".toList)]),
   (("b".toList, "2.0.0".toList), [("a".toList, "1.0.0".toList)])]

/-- Witness for C9: rendering the cyclic cache from a prints each of the
two identities exactly once. -/
theorem c9_no_duplicate_render_witness :
    ∃ ps : List (PkgId × Nat),
      renderLine ("a".toList, "1.0.0".toList) 0 ++
          renderLine ("b".toList, "2.0.0".toList) 1 =
        [] ++ (ps.map (fun q => renderLine q.1 q.2)).flatten ∧
      [("a".toList, "1.0.0".toList), ("b".toList, "2.0.0".toList)] =
        ps.map Prod.fst ∧ (ps.map Prod.fst).Nodup :=
  c9_no_duplicate_render 3 c9Cache ("a".toList, "1.0.0".toList) []
    (renderLine ("a".toList, "1.0.0".toList) 0 ++
      renderLine ("b".toList, "2.0.0".toList) 1)
    [("a".toList, "1.0.0".toList), ("b".toList, "2.0.0".toList)] 0 (by rfl)
